import Mathlib

/-!
Verification of the algeneva HTTP strategy library (getlantern/algeneva).

Shallow embedding: Go byte slices and strings are modelled as `List Char`
(each `Char` standing for one byte; all data handled by the library is
ASCII), Go's fallible functions return `Except` or `Option`, and the
stateful connection adapter is modelled by explicit state passing.
Machine integers are modelled as `Nat`/`Int` with explicit `% 2^64`
where Go's `uint64` wraparound matters.

The definitions below are transcribed from the Go sources:
`actions.go`, `strategy.go`, `request.go`, `conn.go`, `normalize.go`.
-/

namespace Algeneva

/-- Brace characters, named to keep string/char literals simple. -/
def lbrace : Char := Char.ofNat 123

/-- Closing brace character. -/
def rbrace : Char := Char.ofNat 125

/-- Single quote character. -/
def squote : Char := Char.ofNat 39

/-- Backtick character. -/
def btick : Char := Char.ofNat 96

/-- ASCII lower-casing of one character, as Go's `strings.ToLower`
and `bytes.ToLower` act on ASCII bytes. -/
def asciiLower (c : Char) : Char :=
  if 'A' ≤ c ∧ c ≤ 'Z' then Char.ofNat (c.toNat + 32) else c

/-- ASCII upper-casing of one character (Go `strings.ToUpper` on ASCII). -/
def asciiUpper (c : Char) : Char :=
  if 'a' ≤ c ∧ c ≤ 'z' then Char.ofNat (c.toNat - 32) else c

/-- Go `strings.ToLower` / `bytes.ToLower` restricted to ASCII input. -/
def lowerStr (l : List Char) : List Char := l.map asciiLower

/-- Go `strings.ToUpper` restricted to ASCII input. -/
def upperStr (l : List Char) : List Char := l.map asciiUpper

/-- The ASCII whitespace characters trimmed by Go's `bytes.TrimSpace`
(`unicode.IsSpace` restricted to ASCII): space, TAB, LF, VT, FF, CR. -/
def isGoSpace (c : Char) : Bool :=
  c = ' ' ∨ c = '\t' ∨ c = '\n' ∨ c = Char.ofNat 11 ∨ c = Char.ofNat 12 ∨ c = '\r'

/-- Go `bytes.TrimSpace` / `strings.TrimSpace` on ASCII data. -/
def trimSpace (l : List Char) : List Char :=
  ((l.dropWhile isGoSpace).reverse.dropWhile isGoSpace).reverse

/-- Go `net/textproto.TrimString`: trims leading and trailing
space, TAB, LF and CR (its private `isASCIISpace`). -/
def textprotoTrim (l : List Char) : List Char :=
  let sp : Char → Bool := fun c => c = ' ' ∨ c = '\t' ∨ c = '\n' ∨ c = '\r'
  ((l.dropWhile sp).reverse.dropWhile sp).reverse

/-- Index of the first occurrence of `pat` inside `l`
(Go `bytes.Index` / `strings.Index`); `none` for Go's `-1`. -/
def idxOfSub (pat : List Char) : List Char → Option Nat
  | [] => if pat = [] then some 0 else none
  | c :: t => if pat.isPrefixOf (c :: t) then some 0 else (idxOfSub pat t).map (· + 1)

/-- Index of the first occurrence of character `c` in `l`
(Go `strings.IndexByte` / `strings.Index` with a one-byte pattern). -/
def idxOfChar (c : Char) : List Char → Option Nat
  | [] => none
  | d :: t => if d = c then some 0 else (idxOfChar c t).map (· + 1)

/-- Index of the last occurrence of character `c` in `l`
(Go `strings.LastIndex` with a one-byte pattern). -/
def lastIdxOfChar (c : Char) (l : List Char) : Option Nat :=
  match idxOfChar c l.reverse with
  | none => none
  | some j => some (l.length - 1 - j)

/-- Go `strings.Split(s, sep)` for a one-character separator: the result
is always non-empty and splitting the empty string yields `[[]]`. -/
def goSplit (sep : Char) : List Char → List (List Char)
  | [] => [[]]
  | c :: t =>
    match goSplit sep t with
    | [] => [[]]
    | h :: r => if c = sep then [] :: h :: r else (c :: h) :: r

/-- Go `strings.Join` with a one-character separator
(inverse of `goSplit`). -/
def joinWith (sep : Char) : List (List Char) → List Char
  | [] => []
  | [x] => x
  | x :: xs => x ++ sep :: joinWith sep xs

/-- Go `strings.Join` / `bytes.Join` with a multi-character separator. -/
def joinWithList (sep : List Char) : List (List Char) → List Char
  | [] => []
  | [x] => x
  | x :: xs => x ++ sep ++ joinWithList sep xs

/-- Go `bytes.Cut(s, sep)`: split around the first occurrence of `sep`,
returning (before, after, found). -/
def goCut (sep l : List Char) : List Char × List Char × Bool :=
  match idxOfSub sep l with
  | some i => (l.take i, l.drop (i + sep.length), true)
  | none => (l, [], false)

/-- Go `copy(dst[i:], src)`: overwrite `dst` starting at offset `i`
with `min (len src) (len dst - i)` bytes of `src`. -/
def goCopy (dst : List Char) (i : Nat) (src : List Char) : List Char :=
  let k := min src.length (dst.length - i)
  dst.take i ++ src.take k ++ dst.drop (i + k)

/-- The `dropCR` helper of `bufio.ScanLines`: strip one trailing `\r` if present. -/
def dropCR (l : List Char) : List Char :=
  if l.getLast? = some '\r' then l.dropLast else l

/-- The token stream of a `bufio.Scanner` with the default `ScanLines`
split function: lines are cut at `\n` with one trailing `\r` stripped,
and a final empty token at EOF is not produced. -/
def scanLines (l : List Char) : List (List Char) :=
  let ps := goSplit '\n' l
  (if ps.getLast? = some [] then ps.dropLast else ps).map dropCR

/-- Decimal accumulation: `none` if `l` is
empty or contains a non-digit, otherwise the denoted natural number. -/
def digitsVal : List Char → Option Nat
  | [] => none
  | l => if l.all (fun c => '0' ≤ c ∧ c ≤ '9')
         then some (l.foldl (fun acc c => acc * 10 + (c.toNat - '0'.toNat)) 0)
         else none

/-- Go `strconv.Atoi` (= `ParseInt` base 10, bit size 64 on a 64-bit
platform): optional single sign, at least one digit, all digits,
result within the `int64` range. `none` models a non-nil error. -/
def goAtoi (s : List Char) : Option Int :=
  let (neg, ds) : Bool × List Char :=
    match s with
    | '-' :: t => (true, t)
    | '+' :: t => (false, t)
    | _ => (false, s)
  match digitsVal ds with
  | none => none
  | some n =>
    let v : Int := if neg then -(n : Int) else (n : Int)
    if v < -(2 ^ 63) ∨ v > 2 ^ 63 - 1 then none else some v

/-- Go `strconv.ParseUint(s, 10, 64)`: no sign allowed, at least one
digit, all digits, result below `2^64`. `none` models an error. -/
def goParseUint64 (s : List Char) : Option Nat :=
  match digitsVal s with
  | none => none
  | some n => if n ≥ 2 ^ 64 then none else some n

/-- Hexadecimal digit test (Go `net/url`'s `ishex`). -/
def isHex (c : Char) : Bool :=
  ('0' ≤ c ∧ c ≤ '9') ∨ ('a' ≤ c ∧ c ≤ 'f') ∨ ('A' ≤ c ∧ c ≤ 'F')

/-- Hexadecimal digit value (Go `net/url`'s `unhex`). -/
def hexVal (c : Char) : Nat :=
  if '0' ≤ c ∧ c ≤ '9' then c.toNat - '0'.toNat
  else if 'a' ≤ c ∧ c ≤ 'f' then c.toNat - 'a'.toNat + 10
  else if 'A' ≤ c ∧ c ≤ 'F' then c.toNat - 'A'.toNat + 10
  else 0

/-- Go `url.PathUnescape`: decode `%XX` escapes ( `+` is kept literal);
a `%` not followed by two hex digits is an error. -/
def pathUnescape : List Char → Except Unit (List Char)
  | [] => .ok []
  | '%' :: a :: b :: rest =>
    if isHex a ∧ isHex b
    then (pathUnescape rest).map (fun r => Char.ofNat (hexVal a * 16 + hexVal b) :: r)
    else .error ()
  | '%' :: _ => .error ()
  | c :: rest => (pathUnescape rest).map (fun r => c :: r)

/-- Go `strings.Repeat(l, n)`. -/
def repeatList (l : List Char) (n : Nat) : List Char :=
  match n with
  | 0 => []
  | n + 1 => l ++ repeatList l n

/-- Returns `true` iff an `Except` value is `.ok` (Go `err == nil`). -/
def isOkE {α β : Type} : Except α β → Bool
  | .ok _ => true
  | .error _ => false

/-- Decidable equality of `Except` results. -/
instance exceptDecEq {α β : Type} [DecidableEq α] [DecidableEq β] :
    DecidableEq (Except α β)
  | .error x, .error y =>
    if h : x = y then .isTrue (by rw [h])
    else .isFalse (by intro he; cases he; exact h rfl)
  | .error _, .ok _ => .isFalse (by intro h; cases h)
  | .ok _, .error _ => .isFalse (by intro h; cases h)
  | .ok x, .ok y =>
    if h : x = y then .isTrue (by rw [h])
    else .isFalse (by intro he; cases he; exact h rfl)

/-! ## Request model (`request.go`) -/

/-- Embedding of `request` (request.go): method, path, version, the raw headers block
(without the terminating blank line) and the body bytes. -/
structure request where
  method : List Char
  path : List Char
  version : List Char
  headers : List Char
  body : List Char
deriving DecidableEq, Repr

/-- Embedding of `newRequest` (request.go): split the input at the first `\r\n\r\n`,
cut the head at the first `\r\n` into start-line and headers, require the
start-line to split on single spaces into exactly three components, and
require the version to be `HTTP/1.0` or `HTTP/1.1`.
Error messages are abbreviated. -/
def newRequest (req : List Char) : Except (List Char) request :=
  match idxOfSub ("\r\n\r\n").data req with
  | none => .error ("invalid request").data
  | some idx =>
    let head := req.take idx
    let (startLine, headers, _) := goCut ("\r\n").data head
    let mpv := goSplit ' ' startLine
    if mpv.length = 3 then
      let v := mpv.getD 2 []
      if v = ("HTTP/1.0").data ∨ v = ("HTTP/1.1").data then
        .ok ⟨mpv.getD 0 [], mpv.getD 1 [], v, headers, req.drop (idx + 4)⟩
      else .error ("unsupported HTTP version").data
    else .error ("invalid request").data

/-- Embedding of `request.bytes` (request.go): `"<method> <path> <version>\r\n<headers>\r\n\r\n"`
followed by the body. -/
def request.bytes (r : request) : List Char :=
  r.method ++ ' ' :: r.path ++ ' ' :: r.version ++ '\r' :: '\n' :: r.headers
    ++ ("\r\n\r\n").data ++ r.body

/-- Embedding of `request.getHeader` (request.go): find `name ++ ":"` in the lower-cased
headers block; if found, return the original bytes from that position up to
the next `\r\n` (or to the end). Returns `[]` for Go's `""`. -/
def request.getHeader (r : request) (name : List Char) : List Char :=
  match idxOfSub (name ++ [':']) (lowerStr r.headers) with
  | none => []
  | some idx =>
    let t := r.headers.drop idx
    let nl := (idxOfSub ("\r\n").data t).getD t.length
    t.take nl

/-! ## Action primitives (`actions.go`)

The Go `Action` interface with its four implementations and the
terminator is modelled as one inductive type.  `insert` and `replace`
carry both the original (URL-encoded) `Value` and the pre-materialized
private `value` field (the decoded value repeated `Num` times), exactly
as the Go structs do. -/

/-- Embedding of `Field` (actions.go): the unit an action operates on. -/
structure field where
  name : List Char
  value : List Char
  isHeader : Bool
deriving DecidableEq, Repr

/-- The `Action` tree: `TerminateAction`, `ChangecaseAction`,
`InsertAction`, `ReplaceAction` and `DuplicateAction` of actions.go.
For insert/replace, `v` is the stored `Value`, `payload` the private
`value` (decoded `v` repeated `num` times). -/
inductive Action where
  | terminate : Action
  | changecase (c : List Char) (next : Action) : Action
  | insert (v payload loc comp : List Char) (num : Int) (next : Action) : Action
  | replace (v payload comp : List Char) (num : Int) (next : Action) : Action
  | dup (left right : Action) : Action
deriving DecidableEq, Repr

/-- Formatting of a Go `int` by `%d` (used by the `String` methods). -/
def intRepr (i : Int) : List Char :=
  if i < 0 then '-' :: (Nat.repr i.natAbs).data else (Nat.repr i.toNat).data

/-- The `String` methods of actions.go: `changecase{c}`,
`insert{v:loc:comp:num}`, `replace{v:comp:num}`,
`duplicate(left, right)` (note the space after the comma), and the empty
string for `TerminateAction`.  Go's helper `nextToString` — empty for
`TerminateAction`, otherwise `"(" + next.String() + ",)"` — is inlined
as the nested match on the successor so that the recursion stays
structural; `nextToString` below restates it. -/
def actionString : Action → List Char
  | .terminate => []
  | .changecase c n =>
    ("changecase\x7b").data ++ c ++ rbrace ::
      (match n with
       | .terminate => []
       | m => '(' :: actionString m ++ (",)").data)
  | .insert v _ loc comp num n =>
    ("insert\x7b").data ++ v ++ ':' :: loc ++ ':' :: comp ++ ':' :: intRepr num ++ rbrace ::
      (match n with
       | .terminate => []
       | m => '(' :: actionString m ++ (",)").data)
  | .replace v _ comp num n =>
    ("replace\x7b").data ++ v ++ ':' :: comp ++ ':' :: intRepr num ++ rbrace ::
      (match n with
       | .terminate => []
       | m => '(' :: actionString m ++ (",)").data)
  | .dup l r => ("duplicate(").data ++ actionString l ++ (", ").data ++ actionString r ++ [')']

/-- Embedding of `nextToString` (actions.go): empty for `TerminateAction`, otherwise
`"(" + next.String() + ",)"` (the form inlined inside `actionString`). -/
def nextToString : Action → List Char
  | .terminate => []
  | a => '(' :: actionString a ++ (",)").data

/-- Embedding of `modifyFieldComponent` (actions.go). -/
def modifyFieldComponent (f : field) (comp : List Char) (fn : List Char → List Char) : field :=
  if comp = ("name").data ∧ f.isHeader then { f with name := fn f.name }
  else { f with value := fn f.value }

/-- Embedding of `InsertAction.insert` (actions.go).  The `random` location draws
`rand.Intn(len-1)+1` from the process-wide PRNG; the draw is modelled by
the oracle `rnd`, reduced into the valid range exactly as `Intn` bounds it. -/
def insertStr (payload loc : List Char) (rnd : Nat → Nat) (str : List Char) : List Char :=
  if loc = ("start").data then payload ++ str
  else if loc = ("end").data then str ++ payload
  else if loc = ("mid").data then
    str.take (str.length / 2) ++ payload ++ str.drop (str.length / 2)
  else if loc = ("random").data then
    if str.length ≤ 1 then str
    else
      let n := rnd (str.length - 1) % (str.length - 1) + 1
      str.take n ++ payload ++ str.drop n
  else str

/-- The `Apply` methods of actions.go: `terminate` returns the field,
`changecase` folds case of name and value, `insert`/`replace` rewrite the
selected component and continue with `next`, `duplicate` concatenates the
results of both branches. -/
def Action.apply (rnd : Nat → Nat) : Action → field → List field
  | .terminate, f => [f]
  | .changecase c n, f =>
    let f :=
      if c = ("upper").data then { f with name := upperStr f.name, value := upperStr f.value }
      else if c = ("lower").data then { f with name := lowerStr f.name, value := lowerStr f.value }
      else f
    n.apply rnd f
  | .insert _ payload loc comp _ n, f =>
    n.apply rnd (modifyFieldComponent f comp (insertStr payload loc rnd))
  | .replace _ payload comp _ n, f =>
    n.apply rnd (modifyFieldComponent f comp (fun _ => payload))
  | .dup l r, f => l.apply rnd f ++ r.apply rnd f

/-- Embedding of `terminateIfNil` (actions.go), with Go's `nil` modelled by `none`. -/
def terminateIfNone (a : Option Action) : Action := a.getD .terminate

/-- Embedding of `NewChangecaseAction` (actions.go). -/
def NewChangecaseAction (c : List Char) (next : Option Action) : Except (List Char) Action :=
  if c ≠ ("upper").data ∧ c ≠ ("lower").data then .error ("invalid case").data
  else .ok (.changecase c (terminateIfNone next))

/-- Embedding of `NewInsertAction` (actions.go): the location must be one of
`start`, `end`, `mid`, `random`; the component `name` or `value`;
`n ≤ 0` is coerced to 1; the value is URL-path-unescaped (failure is an
error) and the decoded value repeated `n` times is pre-materialized. -/
def NewInsertAction (v l c : List Char) (n : Int) (next : Option Action) :
    Except (List Char) Action :=
  if l ≠ ("start").data ∧ l ≠ ("end").data ∧ l ≠ ("mid").data ∧ l ≠ ("random").data then
    .error ("invalid location").data
  else if c ≠ ("name").data ∧ c ≠ ("value").data then
    .error ("invalid component").data
  else
    let n := if n ≤ 0 then 1 else n
    match pathUnescape v with
    | .error _ => .error ("invalid value").data
    | .ok nv => .ok (.insert v (repeatList nv n.toNat) l c n (terminateIfNone next))

/-- Embedding of `NewReplaceAction` (actions.go). -/
def NewReplaceAction (v c : List Char) (n : Int) (next : Option Action) :
    Except (List Char) Action :=
  if c ≠ ("name").data ∧ c ≠ ("value").data then
    .error ("invalid component").data
  else
    let n := if n ≤ 0 then 1 else n
    match pathUnescape v with
    | .error _ => .error ("invalid value").data
    | .ok nv => .ok (.replace v (repeatList nv n.toNat) c n (terminateIfNone next))

/-- Embedding of `NewDuplicateAction` (actions.go). -/
def NewDuplicateAction (l r : Option Action) : Action :=
  .dup (terminateIfNone l) (terminateIfNone r)

/-- The switch of `NewAction` (actions.go) after argument extraction:
a non-`duplicate` action with a non-nil right branch is an error;
`changecase` takes 1 argument, `insert` exactly 4, `replace` exactly 3
(the count argument must satisfy `strconv.Atoi`), `duplicate` none. -/
def newActionSwitch (name : List Char) (args : List (List Char))
    (left right : Option Action) : Except (List Char) Action :=
  if name ≠ ("duplicate").data ∧ right ≠ none then
    .error ("action does not support a right branch action").data
  else if name = ("changecase").data then
    if args.length ≠ 1 then .error ("changecase requires 1 argument").data
    else NewChangecaseAction (args.getD 0 []) left
  else if name = ("insert").data then
    if args.length ≠ 4 then .error ("insert requires 4 arguments").data
    else
      match goAtoi (args.getD 3 []) with
      | none => .error ("insert number of copies must be an int").data
      | some n => NewInsertAction (args.getD 0 []) (args.getD 1 []) (args.getD 2 []) n left
  else if name = ("replace").data then
    if args.length ≠ 3 then .error ("replace requires 3 arguments").data
    else
      match goAtoi (args.getD 2 []) with
      | none => .error ("replace number of copies must be an int").data
      | some n => NewReplaceAction (args.getD 0 []) (args.getD 1 []) n left
  else if name = ("duplicate").data then
    if args.length ≠ 0 then .error ("duplicate does not support arguments").data
    else .ok (NewDuplicateAction left right)
  else .error ("unknown action").data

/-- Embedding of `NewAction` (actions.go): if a `\x7b` occurs, the string must end in
`\x7d`; the argument list is the colon-split of the text between the first
`\x7b` and the final character, and the action name is the text before the
`\x7b`.  Otherwise the whole string is the name and there are no arguments. -/
def NewAction (s : List Char) (left right : Option Action) : Except (List Char) Action :=
  match idxOfChar lbrace s with
  | some i =>
    if s.getLast? ≠ some rbrace then
      .error ("closing brace must end action string if args are given").data
    else
      let args := goSplit ':' ((s.drop (i + 1)).take (s.length - 1 - (i + 1)))
      newActionSwitch (s.take i) args left right
  | none => newActionSwitch s [] left right

/-! ## Strategy parser and evaluator (`strategy.go`) -/

/-- The scanning loop of `splitLeftRight` (strategy.go): walk the string
counting `(` and `,`; report the first index at which the counts agree. -/
def slrIdx : List Char → Nat → Nat → Nat → Option Nat
  | [], _, _, _ => none
  | c :: rest, i, np, nc =>
    let np := if c = '(' then np + 1 else np
    let nc := if c = ',' then nc + 1 else nc
    if np = nc then some i else slrIdx rest (i + 1) np nc

/-- Embedding of `splitLeftRight` (strategy.go): given `action[fp:lp+1]` (which starts
with `(` at every call site), return `action[1:i]` and
`action[i+1:len-1]` for the first index `i` balancing `(` against `,`;
`none` models the error return. -/
def splitLeftRight (action : List Char) : Option (List Char × List Char) :=
  match slrIdx action 0 0 0 with
  | none => none
  | some i =>
    some ((action.drop 1).take (i - 1), (action.drop (i + 1)).take (action.length - 1 - (i + 1)))

/-- Embedding of `parseAction` (strategy.go), with a fuel parameter for the recursion
on the left/right substrings.  Both substrings produced by
`splitLeftRight` are strictly shorter than the input, so
`fuel = length + 1` (as supplied by `parseAction`) never runs out; the
fuel-exhausted branch is unreachable.  Error messages are abbreviated. -/
def parseActionF : Nat → List Char → Except (List Char) Action
  | 0, _ => .error ("out of fuel").data
  | fuel + 1, s =>
    if s = [] then .ok .terminate
    else
      let fp : Int := match idxOfChar '(' s with | none => -1 | some i => (i : Int)
      let lp : Int := match lastIdxOfChar ')' s with | none => -1 | some i => (i : Int)
      if lp < fp then .error ("missing matching parentheses").data
      else
        match idxOfChar '(' s with
        | none =>
          match NewAction s none none with
          | .error e => .error (("invalid action: ").data ++ e)
          | .ok a => .ok a
        | some i =>
          let sub := (s.drop i).take (lp.toNat + 1 - i)
          match splitLeftRight sub with
          | none => .error ("invalid format for left and right actions").data
          | some (l, r) =>
            match parseActionF fuel l with
            | .error e => .error e
            | .ok la =>
              match parseActionF fuel r with
              | .error e => .error e
              | .ok ra =>
                match NewAction (s.take i) (some la) (some ra) with
                | .error e => .error (("invalid action: ").data ++ e)
                | .ok a => .ok a

/-- Embedding of `parseAction` (strategy.go) at its always-sufficient fuel. -/
def parseAction (s : List Char) : Except (List Char) Action :=
  parseActionF (s.length + 1) s

/-- Embedding of `trigger` (strategy.go): protocol, target field and match string. -/
structure trigger where
  proto : List Char
  targetField : List Char
  matchStr : List Char
deriving DecidableEq, Repr

/-- Embedding of `matchValue` (strategy.go). -/
def matchValue (value matchstr : List Char) : Bool :=
  matchstr = ("*").data ∨ value = matchstr

/-- Embedding of `trigger.match` (strategy.go): an empty protocol never matches;
`method`/`path`/`version` select the corresponding component; any other
target is a header looked up with `getHeader` (match fails when absent);
a found header line is `strings.Split` on `:` and the field takes
`parts[0]` and `parts[1]`.  (Go indexes `parts[1]` unconditionally and
would panic were the found line colon-free; the model totalizes that
case to `[]`.)  The boolean is `matchValue` of the field value. -/
def trigger.match (t : trigger) (req : request) : field × Bool :=
  if t.proto = [] then (⟨[], [], false⟩, false)
  else
    let fld : Option field :=
      if t.targetField = ("method").data then some ⟨("method").data, req.method, false⟩
      else if t.targetField = ("path").data then some ⟨("path").data, req.path, false⟩
      else if t.targetField = ("version").data then some ⟨("version").data, req.version, false⟩
      else
        let header := req.getHeader t.targetField
        if header = [] then none
        else
          let parts := goSplit ':' header
          some ⟨parts.getD 0 [], parts.getD 1 [], true⟩
    match fld with
    | none => (⟨[], [], false⟩, false)
    | some f => (f, matchValue f.value t.matchStr)

/-- Go `strings.Replace(s, old, new, 1)`: replace the first occurrence. -/
def replaceFirst (s old new : List Char) : List Char :=
  match idxOfSub old s with
  | none => s
  | some i => s.take i ++ new ++ s.drop (i + old.length)

/-- Embedding of `applyModifications` (strategy.go): join header modifications as
`name:value` lines separated by `\r\n` (or concatenate the values for a
component field), then write the result into the matching request slot;
for a header, textually replace the first occurrence of the original
`name:value` line inside the raw headers block. -/
def applyModifications (req : request) (fld : field) (mods : List field) : request :=
  let newValue :=
    if fld.isHeader then
      joinWithList ("\r\n").data (mods.map (fun m => m.name ++ ':' :: m.value))
    else
      mods.foldl (fun acc m => acc ++ m.value) []
  if fld.name = ("method").data then { req with method := newValue }
  else if fld.name = ("path").data then { req with path := newValue }
  else if fld.name = ("version").data then { req with version := newValue }
  else
    { req with headers := replaceFirst req.headers (fld.name ++ ':' :: fld.value) newValue }

/-- Embedding of `rule` (strategy.go): a trigger paired with an action tree. -/
structure rule where
  trig : trigger
  tree : Action
deriving DecidableEq, Repr

/-- Embedding of `HTTPStrategy.apply` (strategy.go): for each rule in order, if the
trigger matches, apply the action tree to the matched field and splice
the modifications back into the request. -/
def strategyApply (rnd : Nat → Nat) (rules : List rule) (req : request) : request :=
  rules.foldl
    (fun r rl =>
      match trigger.match rl.trig r with
      | (fld, true) => applyModifications r fld (rl.tree.apply rnd fld)
      | (_, false) => r)
    req

/-! ## Connection adapter (`conn.go`) -/

/-- The mutable state of `conn` (conn.go): the buffered bytes, the
`uint64` `remaining` counter and the `readHeaders` flag. -/
structure connState where
  buf : List Char
  remaining : Nat
  readHeaders : Bool
deriving DecidableEq, Repr

/-- The reset state produced by `conn.reset` (conn.go). -/
def connReset : connState := ⟨[], 0, false⟩

/-- Go `uint64` subtraction `a - b` (wrapping modulo `2^64`);
`a` is maintained below `2^64`, `b` is reduced as Go's conversion
`uint64(n)` would reduce it. -/
def uint64sub (a b : Nat) : Nat := (a + 2 ^ 64 - b % 2 ^ 64) % 2 ^ 64

/-- Embedding of `conn.Write` (conn.go) as a pure transition.  The underlying
transport write is modelled as always succeeding; the third component is
what was written to the transport during the call.  The deferred reset
(`err != nil || (remaining == 0 && readHeaders)`) is applied to the
post-body state.  Error messages are abbreviated. -/
def connWrite (rnd : Nat → Nat) (rules : List rule) (st : connState) (p : List Char) :
    Except (List Char) Nat × connState × List Char :=
  let core : Except (List Char) Nat × connState × List Char :=
    if st.readHeaders then
      (.ok p.length, { st with remaining := uint64sub st.remaining p.length }, p)
    else
      let buf := st.buf ++ p
      match idxOfSub ("\r\n\r\n").data buf with
      | none => (.ok p.length, { st with buf := buf }, [])
      | some _ =>
        match newRequest buf with
        | .error e => (.error e, { st with buf := buf }, [])
        | .ok req =>
          let clh := req.getHeader ("content-length").data
          let cls := goSplit ':' clh
          if cls.length ≠ 2 then
            (.error ("missing content-length header").data, { st with buf := buf }, [])
          else
            match goParseUint64 (textprotoTrim (cls.getD 1 [])) with
            | none =>
              (.error ("invalid content-length header").data,
                { buf := buf, remaining := 0, readHeaders := st.readHeaders }, [])
            | some cl =>
              let req' := strategyApply rnd rules req
              let remaining := uint64sub cl req.body.length
              (.ok p.length, { buf := buf, remaining := remaining, readHeaders := true },
                req'.bytes)
  match core with
  | (res, st', sent) =>
    if isOkE res = false ∨ (st'.remaining = 0 ∧ st'.readHeaders) then (res, connReset, sent)
    else (res, st', sent)

/-! ## HTTP normalizer (`normalize.go`) -/

/-- Embedding of `validTokenTable` (normalize.go) as a predicate: RFC 7230 `tchar` —
digits, ASCII letters and `!#$%&'*+-.|~^_` and backtick.  `isValidToken`'s
bound check (`b < 127`) is subsumed by the explicit ranges. -/
def validToken (c : Char) : Bool :=
  ('0' ≤ c ∧ c ≤ '9') ∨ ('A' ≤ c ∧ c ≤ 'Z') ∨ ('a' ≤ c ∧ c ≤ 'z') ∨
    c ∈ ['!', '#', '$', '%', '&', squote, '*', '+', '-', '.', '|', '~', '^', '_', btick]

/-- Embedding of `hostTokenTable` (normalize.go) as a predicate: RFC 3986 host
characters — alphanumerics, `:`, sub-delims and unreserved marks. -/
def hostToken (c : Char) : Bool :=
  ('0' ≤ c ∧ c ≤ '9') ∨ ('A' ≤ c ∧ c ≤ 'Z') ∨ ('a' ≤ c ∧ c ≤ 'z') ∨
    c ∈ [':', '!', '$', '&', squote, '(', ')', '*', '+', ',', ';', '=', '-', '.', '_', '~']

/-- Embedding of `versionTokens` (normalize.go) as a predicate. -/
def versionToken (c : Char) : Bool :=
  c ∈ ['H', 'T', 'P', 'h', 't', 'p', '/', '1', '.', '0']

/-- Embedding of `isCtrl` (normalize.go). -/
def isCtrl (c : Char) : Bool := c.toNat < 32 ∨ c.toNat = 127

/-- Embedding of `isAlpha` (normalize.go). -/
def isAlpha (c : Char) : Bool := ('A' ≤ c ∧ c ≤ 'Z') ∨ ('a' ≤ c ∧ c ≤ 'z')

/-- Embedding of `validHeaderValueToken` (normalize.go). -/
def validHeaderValueToken (c : Char) : Bool := ¬ isCtrl c ∨ c = '\t'

/-- Embedding of `clean` (normalize.go): keep only the valid characters.  (Go filters
in place and returns the shortened prefix slice.) -/
def clean (s : List Char) (valid : Char → Bool) : List Char := s.filter valid

/-- The content seen through a slice whose prefix was overwritten by
`clean`'s in-place filtering: the filtered characters followed by the
untouched tail of the original bytes.  Models what a caller that keeps
the *original* slice header observes after `clean(s, f)`. -/
def cleanMut (s : List Char) (valid : Char → Bool) : List Char :=
  clean s valid ++ s.drop (clean s valid).length

/-- Embedding of `isValidMethod` (normalize.go). -/
def isValidMethod (m : List Char) : Bool :=
  m = ("GET").data ∨ m = ("HEAD").data ∨ m = ("POST").data ∨ m = ("PUT").data ∨
    m = ("DELETE").data ∨ m = ("CONNECT").data ∨ m = ("OPTIONS").data ∨ m = ("TRACE").data

/-- Embedding of `isVersion1x` (normalize.go). -/
def isVersion1x (v : List Char) : Bool :=
  v = ("HTTP/1.0").data ∨ v = ("HTTP/1.1").data ∨ v = ("http/1.0").data ∨ v = ("http/1.1").data

/-- Embedding of `isValidPath` (normalize.go): origin-form (`/`…), absolute-form
(`p[:8]` lower-cased compared against `http://` and `https://` — note the
8-byte slice can only ever equal `https://`), or asterisk-form (`*`).
Go indexes `p[0]` unconditionally and panics on an empty slice; the
model totalizes that case to `false`. -/
def isValidPath (p : List Char) : Bool :=
  match p with
  | [] => false
  | c :: _ =>
    if c = '/' then true
    else if p.length > 8 ∧ (c = 'H' ∨ c = 'h') then
      lowerStr (p.take 8) = ("http://").data ∨ lowerStr (p.take 8) = ("https://").data
    else p = ("*").data

/-- The request-line tokenizing loop of `parseRequestLine` (normalize.go):
trim whitespace, take up to the next space, trim the token, keep it if
non-empty, continue on the rest.  Each iteration strictly shortens the
line, so `fuel = length + 1` (as supplied by `tokenizeRL`) suffices. -/
def tokenizeRLF : Nat → List Char → List (List Char)
  | 0, _ => []
  | _, [] => []
  | fuel + 1, line =>
    let line := trimSpace line
    let sp := (idxOfChar ' ' line).getD line.length
    let comp := trimSpace (line.take sp)
    let rest := line.drop sp
    if comp = [] then tokenizeRLF fuel rest else comp :: tokenizeRLF fuel rest

/-- Entry point of the tokenizing loop. -/
def tokenizeRL (line : List Char) : List (List Char) :=
  tokenizeRLF (line.length + 1) line

/-- The method-recovery loop of `parseRequestLine` (normalize.go): scan
components `0 .. len-3`, clean each through `isAlpha` (the in-place
filtering is visible through the stored slice, modelled by `cleanMut`),
and stop at the first valid RFC 7231 method.  Returns the updated
component list, the method (or `[]`) and the loop index.
`fuel = length + 1` suffices. -/
def methodLoopF : Nat → Nat → List (List Char) → List (List Char) × List Char × Nat
  | 0, mIdx, comps => (comps, [], mIdx)
  | fuel + 1, mIdx, comps =>
    if mIdx < comps.length - 2 then
      let cur := comps.getD mIdx []
      let c := clean cur isAlpha
      let comps := comps.set mIdx (cleanMut cur isAlpha)
      if isValidMethod c then (comps, c, mIdx) else methodLoopF fuel (mIdx + 1) comps
    else (comps, [], mIdx)

/-- The version-recovery loop of `parseRequestLine` (normalize.go): scan
components from `len-1` down to `2`, cleaning through `versionTokens`,
stopping at the first `HTTP/1.x` form. -/
def versionLoop : List (List Char) → Nat → List (List Char) × List Char × Nat
  | comps, 0 => (comps, [], 0)
  | comps, 1 => (comps, [], 1)
  | comps, v + 2 =>
    let cur := comps.getD (v + 2) []
    let c := clean cur versionToken
    let comps := comps.set (v + 2) (cleanMut cur versionToken)
    if isVersion1x c then (comps, c, v + 2) else versionLoop comps (v + 1)

/-- The character class used when cleaning path candidates
(normalize.go): valid tokens plus `/` and `:`. -/
def pathToken (c : Char) : Bool := validToken c ∨ c = '/' ∨ c = ':'

/-- The path-recovery loop of `parseRequestLine` (normalize.go): for
`i` in `(mIdx, vIdx)`, reassign `components[i]` to its cleaned form and
stop at the first valid path.  `fuel = vIdx + 1` suffices. -/
def pathLoopF : Nat → List (List Char) → Nat → Nat → List (List Char) × List Char
  | 0, comps, _, _ => (comps, [])
  | fuel + 1, comps, i, vIdx =>
    if i < vIdx then
      let c := clean (comps.getD i []) pathToken
      let comps := comps.set i c
      if isValidPath c then (comps, c) else pathLoopF fuel comps (i + 1) vIdx
    else (comps, [])

/-- Embedding of `parseRequestLine` (normalize.go): tokenize; fewer than three
components is an error; recover method (left-to-right), version
(right-to-left) and path (between them, falling back to the component
after the method). -/
def parseRequestLine (line : List Char) : Except (List Char) (List Char × List Char × List Char) :=
  let comps := tokenizeRL line
  if comps.length < 3 then .error ("invalid request line").data
  else
    let (comps, method, mIdx) := methodLoopF (comps.length + 1) 0 comps
    let mIdx := if method = [] then 0 else mIdx
    let (comps, version, vIdx) := versionLoop comps (comps.length - 1)
    let vIdx := if version = [] then comps.length - 1 else vIdx
    let (comps, path) := pathLoopF (vIdx + 1) comps (mIdx + 1) vIdx
    let path := if path = [] then comps.getD (mIdx + 1) [] else path
    .ok (method, path, version)

/-- Embedding of `cleanHeader` (normalize.go): cut at the first `:` (absence is an
error); clean the name through the token table; remember and strip one
leading space of the value; clean the value through the host table when
the name is exactly `Host`, otherwise trim it and strip control
characters; re-emit `name:[SP]value`.  Go reads `value[0]`
unconditionally and would panic on an empty value; the model returns a
distinguished error on that unreachable-for-our-inputs path. -/
def cleanHeader (h : List Char) : Except (List Char) (List Char) :=
  match goCut [':'] h with
  | (_, _, false) => .error ("invalid header").data
  | (name, value, true) =>
    let name := clean name validToken
    match value with
    | [] => .error ("panic: index out of range").data
    | v0 :: _ =>
      let hasSepOSP := v0 = ' '
      let value := if hasSepOSP then value.drop 1 else value
      let value :=
        if name = ("Host").data then clean value hostToken
        else clean (trimSpace value) validHeaderValueToken
      .ok (name ++ ':' :: (if hasSepOSP then ' ' :: value else value))

/-- The header-cleaning loop of `NormalizeRequest` (normalize.go). -/
def cleanHeaders : List (List Char) → Except (List Char) (List (List Char))
  | [] => .ok []
  | h :: t =>
    match cleanHeader h with
    | .error e => .error e
    | .ok h' =>
      match cleanHeaders t with
      | .error e => .error e
      | .ok t' => .ok (h' :: t')

/-- Embedding of `NormalizeRequest` (normalize.go): split head/body at the first
`\r\n\r\n`; scan the head (which keeps its final `\r\n`) into lines;
parse the request line; default the method to `POST`/`GET` and the
version to `HTTP/1.1` when unrecovered; clean every header line; then
rebuild into a fresh buffer of size `len(newHead)+4+len(body)` with the
three `copy` calls of lines 92–94 — the body is copied to offset
`len(newHead)`, the same offset as the `\r\n\r\n` separator. -/
def NormalizeRequest (req : List Char) : Except (List Char) (List Char) :=
  match idxOfSub ("\r\n\r\n").data req with
  | none => .error ("missing header/body separator").data
  | some idx =>
    let head := req.take (idx + 2)
    let body := req.drop (idx + 4)
    match scanLines head with
    | [] => .ok []
    | first :: rest =>
      match parseRequestLine first with
      | .error e => .error e
      | .ok (m, p, v) =>
        let method := if m = [] then (if body.length > 0 then ("POST").data else ("GET").data) else m
        let version := if v = [] then ("HTTP/1.1").data else v
        match cleanHeaders rest with
        | .error e => .error e
        | .ok hdrs =>
          let rl := method ++ ' ' :: p ++ ' ' :: version
          let newHead := joinWithList ("\r\n").data (rl :: hdrs)
          let newReq := List.replicate (newHead.length + 4 + body.length) (Char.ofNat 0)
          let newReq := goCopy newReq 0 newHead
          let newReq := goCopy newReq newHead.length ("\r\n\r\n").data
          let newReq := goCopy newReq newHead.length body
          .ok newReq

/-! ## Specification-side definitions and concrete inputs for the claims -/

/-- The header-trigger field as the spec describes it after amendment:
the name is the segment before the first `:` of the found header line and
the value is the segment between the first and the second `:` (the whole
remainder when there is no second colon), retaining a leading space. -/
def specHeaderField (line : List Char) : field :=
  ⟨line.takeWhile (fun c => c != ':'),
    ((line.dropWhile (fun c => c != ':')).tail).takeWhile (fun c => c != ':'),
    true⟩

/-- Header-trigger matching as the (amended) spec describes it: locate the
header case-insensitively (via `getHeader`); fail when absent; otherwise
build `specHeaderField` and declare a match iff the match string is `*`
or the field value equals it literally. -/
def specHeaderMatch (t : trigger) (req : request) : field × Bool :=
  if t.proto = [] then (⟨[], [], false⟩, false)
  else
    let header := req.getHeader t.targetField
    if header = [] then (⟨[], [], false⟩, false)
    else
      let f := specHeaderField header
      (f, matchValue f.value t.matchStr)

/-- Returns `true` iff an action tree contains no `duplicate` node. -/
def noDup : Action → Bool
  | .terminate => true
  | .changecase _ n => noDup n
  | .insert _ _ _ _ _ n => noDup n
  | .replace _ _ _ _ n => noDup n
  | .dup _ _ => false

/-- The count argument of an `insert`/`replace` action string is written
canonically: it is the decimal representation of the positive integer
that `strconv.Atoi` reads from it.  (States the hypothesis of the
amended parse/serialize round trip; the decomposition mirrors
`NewAction`'s argument extraction.) -/
def countCanonical (s : List Char) : Prop :=
  match idxOfChar lbrace s with
  | none => True
  | some i =>
    let name := s.take i
    let args := goSplit ':' ((s.drop (i + 1)).take (s.length - 1 - (i + 1)))
    (name = ("insert").data →
      ∃ n : Nat, 1 ≤ n ∧ args.getD 3 [] = (Nat.repr n).data ∧
        goAtoi (args.getD 3 []) = some (n : Int)) ∧
    (name = ("replace").data →
      ∃ n : Nat, 1 ≤ n ∧ args.getD 2 [] = (Nat.repr n).data ∧
        goAtoi (args.getD 2 []) = some (n : Int))

/-- A request whose `Host` header value contains a colon (a host:port). -/
def colonReq : request :=
  ⟨("GET").data, ("/").data, ("HTTP/1.1").data, ("Host: a:b").data, []⟩

/-- A normalization input carrying a non-empty body. -/
def bodyReq : List Char := ("GET / HTTP/1.1\r\nA: b\r\n\r\n0123").data

/-- What `NormalizeRequest` actually returns on `bodyReq`. -/
def bodyReqOut : List Char := ("GET / HTTP/1.1\r\nA: b0123\x00\x00\x00\x00").data

/-- A fixed (arbitrary) PRNG oracle for concrete evaluations. -/
def rndZero : Nat → Nat := fun _ => 0

/-- A complete request with a `Content-Length` smaller than the body
bytes already present in the same write. -/
def overlongWrite : List Char := ("POST / HTTP/1.1\r\ncontent-length: 1\r\n\r\nab").data

/-- The parse of `overlongWrite` as a `request`. -/
def overlongReq : request :=
  ⟨("POST").data, ("/").data, ("HTTP/1.1").data, ("content-length: 1").data, ("ab").data⟩

/-! ## Helper lemmas -/

/-- Embedding of `goSplit` never returns an empty list of parts. -/
theorem goSplit_ne_nil (sep : Char) (l : List Char) : goSplit sep l ≠ [] := by
  induction l with
  | nil => simp [goSplit]
  | cons c t ih =>
    simp only [goSplit]
    cases hg : goSplit sep t with
    | nil => simp
    | cons h r => by_cases hc : c = sep <;> simp [hc]

/-- Joining the parts of `goSplit` with the separator restores the input. -/
theorem joinWith_goSplit (sep : Char) (l : List Char) :
    joinWith sep (goSplit sep l) = l := by
  induction l with
  | nil => rfl
  | cons c t ih =>
    simp only [goSplit]
    cases hg : goSplit sep t with
    | nil => exact absurd hg (goSplit_ne_nil sep t)
    | cons h r =>
      rw [hg] at ih
      by_cases hc : c = sep
      · subst hc
        simp only [if_pos rfl, joinWith]
        cases r <;> simpa [joinWith] using ih
      · simp only [if_neg hc]
        cases r <;> simp_all [joinWith]

/-- The first part of `goSplit` is the input up to the first separator. -/
theorem goSplit_getD_zero (sep : Char) (l : List Char) :
    (goSplit sep l).getD 0 [] = l.takeWhile (fun c => c != sep) := by
  induction l with
  | nil => rfl
  | cons c t ih =>
    simp only [goSplit]
    cases hg : goSplit sep t with
    | nil => exact absurd hg (goSplit_ne_nil sep t)
    | cons h r =>
      rw [hg] at ih
      by_cases hc : c = sep
      · subst hc
        simp [List.takeWhile_cons]
      · have hb : (c != sep) = true := by simp [hc]
        simp only [if_neg hc, List.takeWhile_cons, hb]
        simpa using ih

/-- The second part of `goSplit` is the segment between the first and the
second separator (empty when there is no first separator). -/
theorem goSplit_getD_one (sep : Char) (l : List Char) :
    (goSplit sep l).getD 1 [] =
      ((l.dropWhile (fun c => c != sep)).tail).takeWhile (fun c => c != sep) := by
  induction l with
  | nil => rfl
  | cons c t ih =>
    simp only [goSplit]
    cases hg : goSplit sep t with
    | nil => exact absurd hg (goSplit_ne_nil sep t)
    | cons h r =>
      rw [hg] at ih
      by_cases hc : c = sep
      · subst hc
        simp only [if_pos rfl, List.getD_cons_succ, List.getD_cons_zero, List.dropWhile_cons]
        simp only [bne_self_eq_false, Bool.false_eq_true, ite_false, List.tail_cons]
        have h0 := goSplit_getD_zero c t
        rw [hg] at h0
        simpa using h0
      · have hb : (c != sep) = true := by simp [hc]
        simp only [if_neg hc, List.dropWhile_cons, hb, ite_true]
        simpa using ih

/-- Embedding of `goSplit` on a separator-free input returns that input as the only part. -/
theorem goSplit_no_sep (sep : Char) (l : List Char) (h : sep ∉ l) :
    goSplit sep l = [l] := by
  induction l with
  | nil => rfl
  | cons c t ih =>
    simp only [goSplit]
    rw [ih (fun hm => h (List.mem_cons_of_mem c hm))]
    have hc : c ≠ sep := fun he => h (he ▸ List.mem_cons_self c t)
    simp [hc]

/-- Embedding of `goSplit` peels one separator-free prefix before a separator. -/
theorem goSplit_append (sep : Char) (pre rest : List Char) (h : sep ∉ pre) :
    goSplit sep (pre ++ sep :: rest) = pre :: goSplit sep rest := by
  induction pre with
  | nil =>
    simp only [List.nil_append, goSplit]
    cases hg : goSplit sep rest with
    | nil => exact absurd hg (goSplit_ne_nil sep rest)
    | cons a b => simp
  | cons c t ih =>
    have hc : c ≠ sep := fun he => h (he ▸ List.mem_cons_self c t)
    have ht : sep ∉ t := fun hm => h (List.mem_cons_of_mem c hm)
    have hstep : goSplit sep (c :: (t ++ sep :: rest)) =
        match goSplit sep (t ++ sep :: rest) with
        | [] => [[]]
        | h :: r => if c = sep then [] :: h :: r else (c :: h) :: r := rfl
    rw [List.cons_append, hstep, ih ht]
    simp [hc]

/-- Splitting off the reported index of `idxOfChar` reassembles the input,
and the index is within bounds. -/
theorem idxOfChar_some (c : Char) (s : List Char) (i : Nat)
    (h : idxOfChar c s = some i) :
    s.take i ++ c :: s.drop (i + 1) = s ∧ i < s.length := by
  induction s generalizing i with
  | nil => simp [idxOfChar] at h
  | cons d t ih =>
    simp only [idxOfChar] at h
    by_cases hd : d = c
    · simp only [if_pos hd] at h
      obtain rfl : (0 : Nat) = i := by simpa using h
      subst hd
      simp
    · simp only [if_neg hd] at h
      cases hj : idxOfChar c t with
      | none => rw [hj] at h; simp at h
      | some j =>
        rw [hj] at h
        obtain rfl : j + 1 = i := by simpa using h
        obtain ⟨ht, hlen⟩ := ih j hj
        constructor
        · simpa [List.take_cons, List.drop_succ_cons] using congrArg (d :: ·) ht
        · simpa using Nat.succ_lt_succ hlen

/-- Embedding of `idxOfChar` of a character placed after a prefix that avoids it. -/
theorem idxOfChar_append (c : Char) (pre rest : List Char) (h : c ∉ pre) :
    idxOfChar c (pre ++ c :: rest) = some pre.length := by
  induction pre with
  | nil => simp [idxOfChar]
  | cons d t ih =>
    have hd : d ≠ c := fun he => h (he ▸ List.mem_cons_self d t)
    have ht : c ∉ t := fun hm => h (List.mem_cons_of_mem d hm)
    simp [idxOfChar, hd, ih ht]

/-- A list whose last element is known splits as `dropLast ++ [x]`. -/
theorem getLastSome_concat (l : List Char) (x : Char) (h : l.getLast? = some x) :
    l.dropLast ++ [x] = l := by
  induction l with
  | nil => simp at h
  | cons d t ih =>
    cases t with
    | nil => simp_all
    | cons e u =>
      simp only [List.getLast?_cons_cons] at h
      simpa [List.dropLast_cons₂] using ih h

/-- Embedding of `goParseUint64` only succeeds below `2 ^ 64`. -/
theorem goParseUint64_lt (s : List Char) (n : Nat) (h : goParseUint64 s = some n) :
    n < 2 ^ 64 := by
  unfold goParseUint64 at h
  cases hd : digitsVal s with
  | none => rw [hd] at h; simp at h
  | some m =>
    rw [hd] at h
    simp only [] at h
    by_cases hm : m ≥ 2 ^ 64
    · rw [if_pos hm] at h
      exact absurd h (by simp)
    · rw [if_neg hm] at h
      have := Option.some.inj h
      omega

/-! ## C9 — strategy application leaves the body unchanged -/

/-- Embedding of `applyModifications` writes only `method`, `path`, `version` or
`headers`; the body field is never assigned. -/
theorem applyModifications_body (req : request) (fld : field) (mods : List field) :
    (applyModifications req fld mods).body = req.body := by
  unfold applyModifications
  repeat' split
  all_goals rfl

/-- C9: for every strategy (list of rules), every PRNG oracle and every
parsed request, applying the strategy leaves the request's body bytes
unchanged; only the method, path, version or headers fields can differ
(the request structure has no other fields). -/
theorem strategy_apply_preserves_body (rnd : Nat → Nat) (rules : List rule) (req : request) :
    (strategyApply rnd rules req).body = req.body := by
  unfold strategyApply
  induction rules generalizing req with
  | nil => rfl
  | cons r t ih =>
    simp only [List.foldl_cons]
    cases hm : trigger.match r.trig req with
    | mk fld b =>
      cases b
      · exact ih req
      · rw [ih (applyModifications req fld (r.tree.apply rnd fld))]
        exact applyModifications_body req fld (r.tree.apply rnd fld)

/-! ## C1 / C6 — the normalizer's rebuild -/

/-- C1: evaluating `NormalizeRequest` at a request with the non-empty
body `0123` shows the returned bytes are *not* request-line + `\r\n` +
headers + `\r\n\r\n` + body: the third `copy` writes the body at offset
`len(newHead)`, overwriting the `\r\n\r\n` separator, and the last four
bytes of the fresh buffer remain zero. -/
theorem normalize_rebuild_diverges :
    NormalizeRequest bodyReq = .ok bodyReqOut ∧
    bodyReqOut ≠
      ("GET / HTTP/1.1").data ++ ("\r\n").data ++ ("A: b").data ++
        ("\r\n\r\n").data ++ ("0123").data := by
  decide

/-- C6: `NormalizeRequest` is not idempotent: on the same input its
output (whose header/body separator was destroyed by the body copy)
fails to normalize a second time, with the missing-separator error. -/
theorem normalize_not_idempotent :
    NormalizeRequest bodyReq = .ok bodyReqOut ∧
    isOkE (NormalizeRequest bodyReqOut) = false := by
  decide

/-! ## C2 — header-trigger matching -/

/-- C2 counterexample: on a request whose `Host` header value contains a
colon, the found line is `Host: a:b`; splitting at the *first* `:` (as
the claim states) would give the value ` a:b`, but `trigger.match` uses
`strings.Split` and `parts[1]`, yielding ` a`; consequently a trigger
whose match string is the claim-predicted value ` a:b` does not match. -/
theorem trigger_match_splits_at_every_colon :
    request.getHeader colonReq ("host").data = ("Host: a:b").data ∧
    trigger.match ⟨("HTTP").data, ("host").data, ("*").data⟩ colonReq =
      (⟨("Host").data, (" a").data, true⟩, true) ∧
    ((" a").data : List Char) ≠ (" a:b").data ∧
    (trigger.match ⟨("HTTP").data, ("host").data, (" a:b").data⟩ colonReq).2 = false := by
  decide

/-- C2 (amended): for every trigger whose target field is a header name
(not `method`/`path`/`version`), `trigger.match` behaves exactly as the
amended spec describes: case-insensitive lookup, failure when absent;
otherwise the name is the segment before the first `:` and the value the
segment between the first and second `:` (the whole remainder if there
is no second colon, retaining a leading space), and the trigger matches
iff the match string is `*` or equals that value literally. -/
theorem trigger_match_header_follows_spec (t : trigger) (req : request)
    (h1 : t.targetField ≠ ("method").data)
    (h2 : t.targetField ≠ ("path").data)
    (h3 : t.targetField ≠ ("version").data) :
    trigger.match t req = specHeaderMatch t req := by
  unfold trigger.match specHeaderMatch
  by_cases hp : t.proto = []
  · simp [hp]
  · simp only [if_neg hp, if_neg h1, if_neg h2, if_neg h3]
    by_cases hh : req.getHeader t.targetField = []
    · simp [hh]
    · simp only [if_neg hh, specHeaderField]
      rw [goSplit_getD_zero, goSplit_getD_one]

/-- Witness for the amended C2 theorem at a concrete trigger and request. -/
theorem trigger_match_header_follows_spec_witness :
    trigger.match ⟨("HTTP").data, ("host").data, ("*").data⟩ colonReq =
      specHeaderMatch ⟨("HTTP").data, ("host").data, ("*").data⟩ colonReq :=
  trigger_match_header_follows_spec _ colonReq (by decide) (by decide) (by decide)

/-! ## C3 — action parse round trip -/

/-- C3 counterexample: `duplicate(,)` parses successfully (to a
duplicate of two terminates), but re-serializing yields
`duplicate(, )` — `DuplicateAction.String` emits a space after the
comma — which differs from the original string. -/
theorem duplicate_roundtrip_fails :
    parseAction ("duplicate(,)").data = .ok (.dup .terminate .terminate) ∧
    actionString (.dup .terminate .terminate) = ("duplicate(, )").data ∧
    (("duplicate(, )").data : List Char) ≠ ("duplicate(,)").data := by
  decide

/-! ## C4 — insert locations -/

/-- C4: `NewInsertAction` rejects the location `middle` (the spelling
the spec, and the repository's own `TestInsertAction_Apply`, use) and
accepts `mid` instead; for the accepted spelling the splice is at the
byte-count midpoint, `s[:len/2] ++ payload ++ s[len/2:]`, as shown both
in general for `insertStr` and on the test's concrete field. -/
theorem insert_middle_rejected :
    NewInsertAction ("[]").data ("middle").data ("value").data 2 none =
      .error (("invalid location").data) ∧
    NewInsertAction ("[]").data ("mid").data ("value").data 2 none =
      .ok (.insert ("[]").data ("[][]").data ("mid").data ("value").data 2 .terminate) ∧
    (∀ payload str : List Char, ∀ rnd : Nat → Nat,
      insertStr payload ("mid").data rnd str =
        str.take (str.length / 2) ++ payload ++ str.drop (str.length / 2)) ∧
    Action.apply rndZero
        (.insert ("[]").data ("[][]").data ("mid").data ("value").data 2 .terminate)
        ⟨("name").data, ("value").data, true⟩ =
      [⟨("name").data, ("va[][]lue").data, true⟩] := by
  refine ⟨by decide, by decide, ?_, by decide⟩
  intro payload str rnd
  unfold insertStr
  rw [if_neg (by decide), if_neg (by decide), if_pos rfl]

/-! ## C5 — argument arities of insert and replace -/

/-- C5 counterexample: an insert action with three arguments and one
with an empty fourth argument both fail to parse (`NewAction` demands
exactly 4 arguments and `strconv.Atoi` rejects the empty string), and
likewise replace with two arguments or an empty third; the claim says
all four should succeed with the count defaulting to 1. -/
theorem insert_three_args_rejected :
    isOkE (parseAction ("insert\x7ba:start:value\x7d").data) = false ∧
    isOkE (parseAction ("insert\x7ba:start:value:\x7d").data) = false ∧
    isOkE (parseAction ("replace\x7ba:value\x7d").data) = false ∧
    isOkE (parseAction ("replace\x7ba:value:\x7d").data) = false := by
  decide

/-- The last element of an append is the last element of a non-empty
right part. -/
theorem getLast?_append_right (xs ys : List Char) (h : ys ≠ []) :
    (xs ++ ys).getLast? = ys.getLast? := by
  induction xs with
  | nil => rfl
  | cons c t ih =>
    rw [List.cons_append]
    cases htys : t ++ ys with
    | nil => exact absurd (List.append_eq_nil.mp htys).2 h
    | cons u v =>
      rw [htys] at ih
      rw [List.getLast?_cons_cons]
      exact ih

/-- A list of length four is a four-element literal. -/
theorem length_eq_four {α : Type} (l : List α) (h : l.length = 4) :
    ∃ a b c d, l = [a, b, c, d] := by
  cases l with
  | nil => simp at h
  | cons a t1 =>
    cases t1 with
    | nil => simp at h
    | cons b t2 =>
      cases t2 with
      | nil => simp at h
      | cons c t3 =>
        cases t3 with
        | nil => simp at h
        | cons d t4 =>
          cases t4 with
          | nil => exact ⟨a, b, c, d, rfl⟩
          | cons e t5 =>
            simp only [List.length_cons] at h
            omega

/-- A successful `newActionSwitch` with a present right branch can only
produce a duplicate action. -/
theorem newActionSwitch_right_some (name : List Char) (args : List (List Char))
    (left : Option Action) (r : Action) (a : Action)
    (h : newActionSwitch name args left (some r) = .ok a) :
    ∃ x y, a = .dup x y := by
  unfold newActionSwitch at h
  by_cases h1 : name ≠ ("duplicate").data ∧ (some r : Option Action) ≠ none
  · rw [if_pos h1] at h
    cases h
  · rw [if_neg h1] at h
    have hname : name = ("duplicate").data := by
      by_contra hn
      exact h1 ⟨hn, by simp⟩
    subst hname
    rw [if_neg (by decide), if_neg (by decide), if_neg (by decide), if_pos rfl] at h
    by_cases h2 : args.length ≠ 0
    · rw [if_pos h2] at h
      cases h
    · rw [if_neg h2] at h
      simp only [NewDuplicateAction] at h
      exact ⟨_, _, (Except.ok.inj h).symm⟩

/-- A successful `NewAction` with a present right branch can only
produce a duplicate action. -/
theorem NewAction_right_some (s : List Char) (la ra : Action) (a : Action)
    (h : NewAction s (some la) (some ra) = .ok a) :
    ∃ x y, a = .dup x y := by
  unfold NewAction at h
  cases hbr : idxOfChar lbrace s with
  | none =>
    rw [hbr] at h
    exact newActionSwitch_right_some _ _ _ _ _ h
  | some i =>
    rw [hbr] at h
    simp only [] at h
    by_cases hL : s.getLast? ≠ some rbrace
    · rw [if_pos hL] at h
      cases h
    · rw [if_neg hL] at h
      exact newActionSwitch_right_some _ _ _ _ _ h

/-- Decomposition of `NewAction` on a string of the shape
`name ++ "{" ++ mid ++ "}"` with a brace-free name: the switch receives
the name and the colon-split of `mid`. -/
theorem NewAction_decomp (name0 mid : List Char) (h : lbrace ∉ name0) :
    NewAction (name0 ++ lbrace :: (mid ++ [rbrace])) none none =
      newActionSwitch name0 (goSplit ':' mid) none none := by
  have hidx : idxOfChar lbrace (name0 ++ lbrace :: (mid ++ [rbrace])) = some name0.length :=
    idxOfChar_append _ _ _ h
  have hassoc : name0 ++ lbrace :: (mid ++ [rbrace]) = (name0 ++ [lbrace]) ++ (mid ++ [rbrace]) := by
    simp
  have hlast : (name0 ++ lbrace :: (mid ++ [rbrace])).getLast? = some rbrace := by
    rw [hassoc, ← List.append_assoc]
    exact List.getLast?_concat _
  have htake : (name0 ++ lbrace :: (mid ++ [rbrace])).take name0.length = name0 :=
    List.take_left name0 _
  have hdrop : (name0 ++ lbrace :: (mid ++ [rbrace])).drop (name0.length + 1) = mid ++ [rbrace] := by
    rw [hassoc]
    have : name0.length + 1 = (name0 ++ [lbrace]).length := by simp
    rw [this]
    exact List.drop_left _ _
  have hlen : (name0 ++ lbrace :: (mid ++ [rbrace])).length - 1 - (name0.length + 1) =
      mid.length := by
    simp only [List.length_append, List.length_cons, List.length_nil]
    omega
  have hmid : ((name0 ++ lbrace :: (mid ++ [rbrace])).drop (name0.length + 1)).take
      ((name0 ++ lbrace :: (mid ++ [rbrace])).length - 1 - (name0.length + 1)) = mid := by
    rw [hdrop, hlen]
    exact List.take_left mid _
  simp only [NewAction, hidx]
  rw [if_neg (by simp [hlast])]
  rw [hmid, htake]

/-- A successful brace-less `NewAction` leaf can only be `duplicate`. -/
theorem newActionSwitch_nil_args (name : List Char) (a : Action)
    (h : newActionSwitch name [] none none = .ok a) :
    a = .dup .terminate .terminate := by
  unfold newActionSwitch at h
  rw [if_neg (fun hand => hand.2 rfl)] at h
  by_cases n1 : name = ("changecase").data
  · rw [if_pos n1, if_pos (by simp)] at h
    cases h
  · rw [if_neg n1] at h
    by_cases n2 : name = ("insert").data
    · rw [if_pos n2, if_pos (by simp)] at h
      cases h
    · rw [if_neg n2] at h
      by_cases n3 : name = ("replace").data
      · rw [if_pos n3, if_pos (by simp)] at h
        cases h
      · rw [if_neg n3] at h
        by_cases n4 : name = ("duplicate").data
        · rw [if_pos n4, if_neg (by simp)] at h
          exact (Except.ok.inj h).symm
        · rw [if_neg n4] at h
          cases h

/-- The leaf case of the parse/serialize round trip: a successful
`NewAction` with no branches, no duplicate node and a canonical count
argument re-serializes to the original string. -/
theorem NewAction_leaf_roundtrip (s : List Char) (a : Action)
    (h : NewAction s none none = .ok a) (hnd : noDup a = true) (hc : countCanonical s) :
    actionString a = s := by
  unfold NewAction at h
  cases hbr : idxOfChar lbrace s with
  | none =>
    rw [hbr] at h
    rw [newActionSwitch_nil_args _ _ h] at hnd
    simp [noDup] at hnd
  | some i =>
    rw [hbr] at h
    simp only [] at h
    by_cases hL : s.getLast? = some rbrace
    case neg =>
      rw [if_pos (by simp [hL])] at h
      cases h
    case pos =>
    rw [if_neg (by simp [hL])] at h
    obtain ⟨hsplit, hilt⟩ := idxOfChar_some lbrace s i hbr
    have hrest_ne : s.drop (i + 1) ≠ [] := by
      intro h0
      rw [h0] at hsplit
      rw [← hsplit] at hL
      have : lbrace = rbrace := by
        have hcat : (s.take i ++ [lbrace]).getLast? = some lbrace := List.getLast?_concat _
        have : (s.take i ++ [lbrace] : List Char) = s.take i ++ lbrace :: [] := by simp
        rw [← this] at hL
        rw [hcat] at hL
        exact Option.some.inj hL
      exact absurd this (by decide)
    have hrl : (s.drop (i + 1)).getLast? = some rbrace := by
      rw [← hsplit] at hL
      have h1 : (s.take i ++ lbrace :: s.drop (i + 1) : List Char)
          = s.take i ++ ([lbrace] ++ s.drop (i + 1)) := by simp
      rw [h1, getLast?_append_right _ _ (by simp),
        getLast?_append_right _ _ hrest_ne] at hL
      exact hL
    have hmid_eq : (s.drop (i + 1)).dropLast ++ [rbrace] = s.drop (i + 1) :=
      getLastSome_concat _ _ hrl
    set mid := (s.drop (i + 1)).dropLast with hmid_def
    have htakei : (s.take i).length = i := by
      rw [List.length_take]
      omega
    have hlen2 : s.length = i + 1 + (s.drop (i + 1)).length := by
      have := congrArg List.length hsplit
      simp only [List.length_append, List.length_cons, htakei] at this
      omega
    have hlenmid : s.length - 1 - (i + 1) = mid.length := by
      have := congrArg List.length hmid_eq
      simp only [List.length_append, List.length_cons, List.length_nil] at this
      omega
    have htakemid : (s.drop (i + 1)).take (s.length - 1 - (i + 1)) = mid := by
      rw [hlenmid, ← hmid_eq]
      exact List.take_left _ _
    rw [htakemid] at h
    simp only [countCanonical, hbr, htakemid] at hc
    have hs_form : s = s.take i ++ lbrace :: (mid ++ [rbrace]) := by
      rw [hmid_eq]
      exact hsplit.symm
    unfold newActionSwitch at h
    rw [if_neg (fun hand => hand.2 rfl)] at h
    by_cases n1 : s.take i = ("changecase").data
    · rw [if_pos n1] at h
      by_cases a1 : (goSplit ':' mid).length ≠ 1
      · rw [if_pos a1] at h
        cases h
      · rw [if_neg a1] at h
        push_neg at a1
        obtain ⟨x, hx⟩ := List.length_eq_one.mp a1
        rw [hx] at h
        have hmidx : mid = x := by
          have hj := joinWith_goSplit ':' mid
          rw [hx] at hj
          simpa [joinWith] using hj.symm
        unfold NewChangecaseAction at h
        by_cases c1 : ([x].getD 0 [] : List Char) ≠ ("upper").data ∧
            ([x].getD 0 [] : List Char) ≠ ("lower").data
        · rw [if_pos c1] at h
          cases h
        · rw [if_neg c1] at h
          have ha : a = .changecase x .terminate := by
            have := Except.ok.inj h
            simpa [terminateIfNone] using this.symm
          rw [ha, hs_form, n1, hmidx]
          have hpre : ("changecase\x7b").data = ("changecase").data ++ [lbrace] := by decide
          have hrhs : ("changecase").data ++ lbrace :: (x ++ [rbrace]) =
              ("changecase\x7b").data ++ (x ++ [rbrace]) := by
            rw [hpre]
            simp
          rw [hrhs]
          simp [actionString]
    · rw [if_neg n1] at h
      by_cases n2 : s.take i = ("insert").data
      · rw [if_pos n2] at h
        by_cases a2 : (goSplit ':' mid).length ≠ 4
        · rw [if_pos a2] at h
          cases h
        · rw [if_neg a2] at h
          push_neg at a2
          obtain ⟨w, x, y, z, hwxyz⟩ := length_eq_four _ a2
          rw [hwxyz] at h
          have hmidj : mid = w ++ ':' :: (x ++ ':' :: (y ++ ':' :: z)) := by
            have hj := joinWith_goSplit ':' mid
            rw [hwxyz] at hj
            simpa [joinWith] using hj.symm
          obtain ⟨k, hk1, hk2, hk3⟩ := hc.1 n2
          rw [hwxyz] at hk2 hk3
          simp only [List.getD_cons_succ, List.getD_cons_zero] at h hk2 hk3
          cases hz : goAtoi z with
          | none =>
            simp only [hz] at h
            cases h
          | some n =>
            simp only [hz] at h
            have hnk : n = (k : Int) := by
              rw [hz] at hk3
              simpa using Option.some.inj hk3
            unfold NewInsertAction at h
            by_cases v1 : (x : List Char) ≠ ("start").data ∧ x ≠ ("end").data ∧
                x ≠ ("mid").data ∧ x ≠ ("random").data
            · rw [if_pos v1] at h
              cases h
            · rw [if_neg v1] at h
              by_cases v2 : (y : List Char) ≠ ("name").data ∧ y ≠ ("value").data
              · rw [if_pos v2] at h
                cases h
              · rw [if_neg v2] at h
                cases hpu : pathUnescape w with
                | error e =>
                  rw [hpu] at h
                  cases h
                | ok nv =>
                  rw [hpu] at h
                  have hclamp : (if n ≤ 0 then 1 else n) = n := by
                    rw [hnk]
                    have : ¬ ((k : Int) ≤ 0) := by exact_mod_cast Nat.not_le.mpr hk1
                    rw [if_neg this]
                  rw [hclamp] at h
                  have ha : a = .insert w (repeatList nv n.toNat) x y n .terminate := by
                    have := Except.ok.inj h
                    simpa [terminateIfNone] using this.symm
                  rw [ha]
                  have hrepr : intRepr n = z := by
                    rw [hnk, hk2]
                    unfold intRepr
                    rw [if_neg (by omega)]
                    simp
                  rw [hs_form, n2, hmidj]
                  have hpre : ("insert\x7b").data = ("insert").data ++ [lbrace] := by decide
                  have hrhs : ("insert").data ++
                      lbrace :: ((w ++ ':' :: (x ++ ':' :: (y ++ ':' :: z))) ++ [rbrace]) =
                      ("insert\x7b").data ++
                        ((w ++ ':' :: (x ++ ':' :: (y ++ ':' :: z))) ++ [rbrace]) := by
                    rw [hpre]
                    simp
                  rw [hrhs]
                  simp [actionString, hrepr]
      · rw [if_neg n2] at h
        by_cases n3 : s.take i = ("replace").data
        · rw [if_pos n3] at h
          by_cases a3 : (goSplit ':' mid).length ≠ 3
          · rw [if_pos a3] at h
            cases h
          · rw [if_neg a3] at h
            push_neg at a3
            obtain ⟨w, x, z, hwxz⟩ := List.length_eq_three.mp a3
            rw [hwxz] at h
            have hmidj : mid = w ++ ':' :: (x ++ ':' :: z) := by
              have hj := joinWith_goSplit ':' mid
              rw [hwxz] at hj
              simpa [joinWith] using hj.symm
            obtain ⟨k, hk1, hk2, hk3⟩ := hc.2 n3
            rw [hwxz] at hk2 hk3
            simp only [List.getD_cons_succ, List.getD_cons_zero] at h hk2 hk3
            cases hz : goAtoi z with
            | none =>
              simp only [hz] at h
              cases h
            | some n =>
              simp only [hz] at h
              have hnk : n = (k : Int) := by
                rw [hz] at hk3
                simpa using Option.some.inj hk3
              unfold NewReplaceAction at h
              by_cases v2 : (x : List Char) ≠ ("name").data ∧ x ≠ ("value").data
              · rw [if_pos v2] at h
                cases h
              · rw [if_neg v2] at h
                cases hpu : pathUnescape w with
                | error e =>
                  rw [hpu] at h
                  cases h
                | ok nv =>
                  rw [hpu] at h
                  have hclamp : (if n ≤ 0 then 1 else n) = n := by
                    rw [hnk]
                    have : ¬ ((k : Int) ≤ 0) := by exact_mod_cast Nat.not_le.mpr hk1
                    rw [if_neg this]
                  rw [hclamp] at h
                  have ha : a = .replace w (repeatList nv n.toNat) x n .terminate := by
                    have := Except.ok.inj h
                    simpa [terminateIfNone] using this.symm
                  rw [ha]
                  have hrepr : intRepr n = z := by
                    rw [hnk, hk2]
                    unfold intRepr
                    rw [if_neg (by omega)]
                    simp
                  rw [hs_form, n3, hmidj]
                  have hpre : ("replace\x7b").data = ("replace").data ++ [lbrace] := by decide
                  have hrhs : ("replace").data ++
                      lbrace :: ((w ++ ':' :: (x ++ ':' :: z)) ++ [rbrace]) =
                      ("replace\x7b").data ++ ((w ++ ':' :: (x ++ ':' :: z)) ++ [rbrace]) := by
                    rw [hpre]
                    simp
                  rw [hrhs]
                  simp [actionString, hrepr]
        · rw [if_neg n3] at h
          by_cases n4 : s.take i = ("duplicate").data
          · rw [if_pos n4] at h
            rw [if_pos (by simpa using goSplit_ne_nil ':' mid)] at h
            cases h
          · rw [if_neg n4] at h
            cases h

/-- C3 (amended): for every action string that parses successfully to a
tree without a duplicate node and whose count argument (for insert and
replace) is written as the canonical decimal form of the positive
integer it denotes, re-serializing the parsed action yields the original
string.  (For trees containing duplicate, `String` inserts a space after
the comma, so the round trip fails — see the counterexample.) -/
theorem parse_serialize_roundtrip (s : List Char) (a : Action)
    (hp : parseAction s = .ok a) (hnd : noDup a = true) (hc : countCanonical s) :
    actionString a = s := by
  unfold parseAction at hp
  by_cases hs0 : s = []
  · subst hs0
    simp only [parseActionF] at hp
    have := Except.ok.inj hp
    rw [← this]
    rfl
  · simp only [parseActionF] at hp
    rw [if_neg hs0] at hp
    cases hfp : idxOfChar '(' s with
    | none =>
      simp only [hfp] at hp
      cases hlp : lastIdxOfChar ')' s with
      | none =>
        simp only [hlp] at hp
        rw [if_neg (by omega)] at hp
        split at hp
        · cases hp
        · rename_i a' hna
          rw [Except.ok.inj hp] at hna
          exact NewAction_leaf_roundtrip s a hna hnd hc
      | some j =>
        simp only [hlp] at hp
        rw [if_neg (by omega)] at hp
        split at hp
        · cases hp
        · rename_i a' hna
          rw [Except.ok.inj hp] at hna
          exact NewAction_leaf_roundtrip s a hna hnd hc
    | some i =>
      simp only [hfp] at hp
      cases hlp : lastIdxOfChar ')' s with
      | none =>
        simp only [hlp] at hp
        rw [if_pos (by omega)] at hp
        cases hp
      | some j =>
        simp only [hlp] at hp
        by_cases hji : (j : Int) < (i : Int)
        · rw [if_pos hji] at hp
          cases hp
        · rw [if_neg hji] at hp
          split at hp
          · cases hp
          · rename_i l r hsl
            split at hp
            · cases hp
            · rename_i la hla
              split at hp
              · cases hp
              · rename_i ra hra
                split at hp
                · cases hp
                · rename_i a' hna
                  obtain ⟨x, y, hd⟩ := NewAction_right_some _ _ _ _ hna
                  rw [Except.ok.inj hp] at hd
                  rw [hd] at hnd
                  simp [noDup] at hnd

/-- Witness for the round-trip theorem at a concrete leaf action. -/
theorem parse_serialize_roundtrip_witness :
    actionString (.changecase ("upper").data .terminate) = ("changecase\x7bupper\x7d").data :=
  parse_serialize_roundtrip ("changecase\x7bupper\x7d").data
    (.changecase ("upper").data .terminate) (by decide) (by decide)
    (by
      constructor
      · intro hins
        exact absurd hins (by decide)
      · intro hrep
        exact absurd hrep (by decide))

/-- C5 (amended): `NewAction` requires exactly four arguments for an
insert action and exactly three for a replace action; a missing final
count argument makes the arity check fail and an empty final count
argument fails integer conversion — in neither case does the count
default to 1. -/
theorem action_arity_exact (v l c : List Char)
    (hv : ':' ∉ v) (hl : ':' ∉ l) (hc : ':' ∉ c) :
    NewAction (("insert\x7b").data ++ v ++ ':' :: l ++ ':' :: c ++ [rbrace]) none none =
      .error (("insert requires 4 arguments").data) ∧
    NewAction (("insert\x7b").data ++ v ++ ':' :: l ++ ':' :: c ++ [':', rbrace]) none none =
      .error (("insert number of copies must be an int").data) ∧
    NewAction (("replace\x7b").data ++ v ++ ':' :: c ++ [rbrace]) none none =
      .error (("replace requires 3 arguments").data) ∧
    NewAction (("replace\x7b").data ++ v ++ ':' :: c ++ [':', rbrace]) none none =
      .error (("replace number of copies must be an int").data) := by
  have hsplit3 : goSplit ':' (v ++ ':' :: (l ++ ':' :: c)) = [v, l, c] := by
    rw [goSplit_append ':' v _ hv, goSplit_append ':' l _ hl, goSplit_no_sep ':' c hc]
  have hsplit4 : goSplit ':' (v ++ ':' :: (l ++ ':' :: (c ++ ':' :: []))) = [v, l, c, []] := by
    rw [goSplit_append ':' v _ hv, goSplit_append ':' l _ hl, goSplit_append ':' c _ hc]
    rfl
  have hsplitR2 : goSplit ':' (v ++ ':' :: c) = [v, c] := by
    rw [goSplit_append ':' v _ hv, goSplit_no_sep ':' c hc]
  have hsplitR3 : goSplit ':' (v ++ ':' :: (c ++ ':' :: [])) = [v, c, []] := by
    rw [goSplit_append ':' v _ hv, goSplit_append ':' c _ hc]
    rfl
  refine ⟨?_, ?_, ?_, ?_⟩
  · have hpre : ("insert\x7b").data = ("insert").data ++ [lbrace] := by decide
    have hs : ("insert\x7b").data ++ v ++ ':' :: l ++ ':' :: c ++ [rbrace] =
        ("insert").data ++ lbrace :: ((v ++ ':' :: (l ++ ':' :: c)) ++ [rbrace]) := by
      rw [hpre]; simp
    rw [hs, NewAction_decomp _ _ (by decide), hsplit3]
    unfold newActionSwitch
    rw [if_neg (fun hand => hand.2 rfl), if_neg (by decide), if_pos rfl,
      if_pos (by simp)]
  · have hpre : ("insert\x7b").data = ("insert").data ++ [lbrace] := by decide
    have hs : ("insert\x7b").data ++ v ++ ':' :: l ++ ':' :: c ++ [':', rbrace] =
        ("insert").data ++ lbrace :: ((v ++ ':' :: (l ++ ':' :: (c ++ ':' :: []))) ++ [rbrace]) := by
      rw [hpre]; simp
    rw [hs, NewAction_decomp _ _ (by decide), hsplit4]
    unfold newActionSwitch
    rw [if_neg (fun hand => hand.2 rfl), if_neg (by decide), if_pos rfl,
      if_neg (by simp)]
    rfl
  · have hpre : ("replace\x7b").data = ("replace").data ++ [lbrace] := by decide
    have hs : ("replace\x7b").data ++ v ++ ':' :: c ++ [rbrace] =
        ("replace").data ++ lbrace :: ((v ++ ':' :: c) ++ [rbrace]) := by
      rw [hpre]; simp
    rw [hs, NewAction_decomp _ _ (by decide), hsplitR2]
    unfold newActionSwitch
    rw [if_neg (fun hand => hand.2 rfl), if_neg (by decide), if_neg (by decide), if_pos rfl,
      if_pos (by simp)]
  · have hpre : ("replace\x7b").data = ("replace").data ++ [lbrace] := by decide
    have hs : ("replace\x7b").data ++ v ++ ':' :: c ++ [':', rbrace] =
        ("replace").data ++ lbrace :: ((v ++ ':' :: (c ++ ':' :: [])) ++ [rbrace]) := by
      rw [hpre]; simp
    rw [hs, NewAction_decomp _ _ (by decide), hsplitR3]
    unfold newActionSwitch
    rw [if_neg (fun hand => hand.2 rfl), if_neg (by decide), if_neg (by decide), if_pos rfl,
      if_neg (by simp)]
    rfl

/-- Witness for the arity theorem at concrete colon-free arguments. -/
theorem action_arity_exact_witness :
    NewAction (("insert\x7b").data ++ ("a").data ++ ':' :: ("start").data ++ ':' ::
        ("value").data ++ [rbrace]) none none =
      .error (("insert requires 4 arguments").data) ∧
    NewAction (("insert\x7b").data ++ ("a").data ++ ':' :: ("start").data ++ ':' ::
        ("value").data ++ [':', rbrace]) none none =
      .error (("insert number of copies must be an int").data) ∧
    NewAction (("replace\x7b").data ++ ("a").data ++ ':' :: ("value").data ++ [rbrace]) none none =
      .error (("replace requires 3 arguments").data) ∧
    NewAction (("replace\x7b").data ++ ("a").data ++ ':' :: ("value").data ++ [':', rbrace])
        none none =
      .error (("replace number of copies must be an int").data) :=
  action_arity_exact ("a").data ("start").data ("value").data (by decide) (by decide) (by decide)

/-! ## C7 / C8 / C10 — the connection adapter's Write -/

/-- C8: while the headers are incomplete (no `\r\n\r\n` in the
accumulated buffer), `Write` reports the full input length with no
error, forwards nothing to the transport, and only appends to the
buffer (no reset: `remaining` and `readHeaders` are untouched). -/
theorem conn_write_buffers (rnd : Nat → Nat) (rules : List rule) (st : connState)
    (p : List Char)
    (h1 : st.readHeaders = false)
    (h2 : idxOfSub ("\r\n\r\n").data (st.buf ++ p) = none) :
    connWrite rnd rules st p = (.ok p.length, ⟨st.buf ++ p, st.remaining, false⟩, []) := by
  rcases st with ⟨buf, rem, rh⟩
  simp only [connState.readHeaders] at h1
  subst h1
  simp only [connState.buf] at h2
  simp [connWrite, h2, isOkE]

/-- Witness for the buffering theorem at a concrete partial write. -/
theorem conn_write_buffers_witness :
    connWrite rndZero [] connReset ("GET / HT").data =
      (.ok ("GET / HT").data.length, ⟨[] ++ ("GET / HT").data, 0, false⟩, []) :=
  conn_write_buffers rndZero [] connReset ("GET / HT").data (by decide) (by decide)

/-- C7: once the end-of-headers marker is present, if the buffered bytes
fail to parse as a request, or the `Content-Length` header is absent, or
its value does not parse as an unsigned 64-bit integer, then `Write`
returns an error, nothing is written to the transport, and the adapter's
buffer, remaining counter and headers-seen flag are reset. -/
theorem conn_write_error_resets (rnd : Nat → Nat) (rules : List rule) (st : connState)
    (p : List Char)
    (h1 : st.readHeaders = false)
    (h2 : idxOfSub ("\r\n\r\n").data (st.buf ++ p) ≠ none)
    (h3 : (∃ e, newRequest (st.buf ++ p) = .error e) ∨
      (∃ req, newRequest (st.buf ++ p) = .ok req ∧
        (req.getHeader ("content-length").data = [] ∨
          ((goSplit ':' (req.getHeader ("content-length").data)).length = 2 ∧
            goParseUint64 (textprotoTrim
              ((goSplit ':' (req.getHeader ("content-length").data)).getD 1 [])) = none)))) :
    ∃ e, connWrite rnd rules st p = (.error e, connReset, []) := by
  rcases st with ⟨buf, rem, rh⟩
  simp only [connState.readHeaders] at h1
  subst h1
  simp only [connState.buf] at h2 h3
  cases hidx : idxOfSub ("\r\n\r\n").data (buf ++ p) with
  | none => exact absurd hidx h2
  | some i =>
    rcases h3 with ⟨e, he⟩ | ⟨req, hreq, hcl⟩
    · exact ⟨e, by simp [connWrite, hidx, he, isOkE]⟩
    · rcases hcl with habs | ⟨hlen, hbad⟩
      · refine ⟨("missing content-length header").data, ?_⟩
        have hg : goSplit ':' (request.getHeader req ("content-length").data) = [[]] := by
          rw [habs]; rfl
        simp [connWrite, hidx, hreq, hg, isOkE]
      · refine ⟨("invalid content-length header").data, ?_⟩
        obtain ⟨a, b, hab⟩ := List.length_eq_two.mp hlen
        have hbad' : goParseUint64 (textprotoTrim b) = none := by
          rw [hab] at hbad
          simpa using hbad
        simp [connWrite, hidx, hreq, hab, hbad', isOkE, connReset]

/-- Witness for the error/reset theorem: a write whose buffered bytes
contain `\r\n\r\n` but whose start-line has only two components. -/
theorem conn_write_error_resets_witness :
    ∃ e, connWrite rndZero [] connReset ("GET /\r\n\r\n").data = (.error e, connReset, []) :=
  conn_write_error_resets rndZero [] connReset ("GET /\r\n\r\n").data (by decide) (by decide)
    (Or.inl ⟨("invalid request").data, by decide⟩)

/-- C10: when the body bytes already buffered with the headers exceed
the declared `Content-Length`, the `uint64` subtraction
`remaining := cl - len(body)` wraps modulo `2^64` instead of signaling
an error: the write succeeds, `remaining` is the non-zero wrapped value
`2^64 - (len(body) - cl)`, and the adapter is left un-reset with
`readHeaders` set. -/
theorem conn_write_wraps_remaining (rnd : Nat → Nat) (rules : List rule) (st : connState)
    (p : List Char) (req : request) (cl : Nat)
    (h1 : st.readHeaders = false)
    (h2 : idxOfSub ("\r\n\r\n").data (st.buf ++ p) ≠ none)
    (h3 : newRequest (st.buf ++ p) = .ok req)
    (h4 : (goSplit ':' (req.getHeader ("content-length").data)).length = 2)
    (h5 : goParseUint64 (textprotoTrim
          ((goSplit ':' (req.getHeader ("content-length").data)).getD 1 [])) = some cl)
    (h6 : cl < req.body.length)
    (h7 : req.body.length < 2 ^ 64) :
    connWrite rnd rules st p =
      (.ok p.length, ⟨st.buf ++ p, 2 ^ 64 - (req.body.length - cl), true⟩,
        (strategyApply rnd rules req).bytes) ∧
    2 ^ 64 - (req.body.length - cl) ≠ 0 := by
  have hne : 2 ^ 64 - (req.body.length - cl) ≠ 0 := by omega
  have hwrap : uint64sub cl req.body.length = 2 ^ 64 - (req.body.length - cl) := by
    unfold uint64sub
    rw [Nat.mod_eq_of_lt h7, Nat.mod_eq_of_lt (by omega)]
    omega
  rcases st with ⟨buf, rem, rh⟩
  simp only [connState.readHeaders] at h1
  subst h1
  simp only [connState.buf] at h2 h3 ⊢
  cases hidx : idxOfSub ("\r\n\r\n").data (buf ++ p) with
  | none => exact absurd hidx h2
  | some i =>
    refine ⟨?_, hne⟩
    obtain ⟨a, b, hab⟩ := List.length_eq_two.mp h4
    have h5' : goParseUint64 (textprotoTrim b) = some cl := by
      rw [hab] at h5
      simpa using h5
    simp [connWrite, hidx, h3, hab, h5', hwrap, isOkE, hne]
    intro hz
    exact absurd hz (by omega)

/-- Witness for the wraparound theorem: `Content-Length: 1` with two
body bytes in the same write leaves `remaining = 2^64 - 1`. -/
theorem conn_write_wraps_remaining_witness :
    connWrite rndZero [] connReset overlongWrite =
      (.ok overlongWrite.length, ⟨[] ++ overlongWrite, 2 ^ 64 - (overlongReq.body.length - 1), true⟩,
        (strategyApply rndZero [] overlongReq).bytes) ∧
    2 ^ 64 - (overlongReq.body.length - 1) ≠ 0 :=
  conn_write_wraps_remaining rndZero [] connReset overlongWrite overlongReq 1 (by decide)
    (by decide) (by decide) (by decide) (by decide) (by decide) (by decide)

end Algeneva
